import Mathlib

/-!
Verification of the MS-ZIP block codec and cabinet writer of the
`makecab` program (crates `mszip` and `makecab`).

The development shallowly embeds the two source crates:

* `mszip/src/lib.rs` — the MS-ZIP encoder (`MSZipEncoder::read_block`
  plus `run_compress`) and decoder (`MSZipDecoder::write_block`).
* `src/lib.rs` — the cabinet writer (`make_cab`, `write_all_cfdata`) and
  the date/time field encoding of the `CFFILE` record.
* `src/bin/makecab.rs` — the CLI's default-destination computation.

Bytes are modelled as `Nat` (values < 256 in every run; none of the
properties below needs the upper bound).  Machine integers are `Nat`
with explicit `% 2^16` / `% 2^32` where the source casts with `as u16` /
`as u32` or performs wrapping (release-mode) arithmetic.

The raw-DEFLATE primitive is the external `flate2`/zlib dependency, not
code of this repository.  It is modelled as an abstract `Deflate`
structure: `compress dict chunk` is the finished DEFLATE stream for
`chunk` when the compressor's 32 KiB sliding window holds `dict`,
`emitNone dict chunk` is how many of those bytes the compressor already
emits during the `Flush::None` call (zlib emits a nonzero amount once
its internal symbol buffer fills, e.g. on near-match-free chunks), and
`decompress dict bytes` is the decompressor's answer (with
`Flush::Finish`) when its dictionary was seeded with `dict`.
`runCompress` mirrors the source's `run_compress` loop over this
interface, including its early-return path: when the `Flush::None` call
emits output, the loop returns without ever issuing `Flush::Finish`,
so the block carries an unfinished stream.  Theorems that depend on
properties of the primitive (the `32768 + 10` output bound, finish-mode
inversion, buffering until finish) take those properties as explicit
hypotheses on the `Deflate` parameter.
-/

namespace Makecab

/-- Source constant `MAX_CHUNK` (`mszip/src/lib.rs`): maximum
uncompressed bytes in an input chunk, 32 KiB. -/
def MAX_CHUNK : Nat := 32768

/-- Source constant `SIG_LEN` (`mszip/src/lib.rs`). -/
def SIG_LEN : Nat := 2

/-- Source constant `MAX_BLOCK_SIZE` (`mszip/src/lib.rs`): maximum size
of an MSZIP compressed block, `MAX_CHUNK + 12`. -/
def MAX_BLOCK_SIZE : Nat := MAX_CHUNK + 12

/-- Source constant `MSZIP_SIGNATURE = [b'C', b'K']` (`0x43`, `0x4B`). -/
def MSZIP_SIGNATURE : List Nat := [67, 75]

/-- Outcome of one `Decompress::decompress(..., Flush::Finish)` call in
`MSZipDecoder::write_block`: `Ok(Status::StreamEnd)` carrying the bytes
written to the output buffer, `Ok(Status::Ok)`, `Ok(Status::BufError)`,
or `Err(DataError)` (surfaced by the `?` operator). -/
inductive DecompResult where
  | streamEnd (out : List Nat)
  | moreOutput
  | bufError
  | dataError
deriving DecidableEq

/-- Abstract model of the external raw-DEFLATE primitive (zlib via
`flate2`).  `compress dict chunk` is the finished stream produced for
`chunk` with sliding-window dictionary `dict` (the concatenation of the
output of the `Flush::None` call and of the final `Flush::Finish`
call); `emitNone dict chunk` is the number of those bytes the
compressor already emits during the `Flush::None` call (0 when it
buffers the whole chunk internally until the finish flush);
`decompress dict bytes` is the finish-mode decompression of `bytes`
against dictionary `dict`. -/
structure Deflate where
  compress : List Nat → List Nat → List Nat
  emitNone : List Nat → List Nat → Nat
  decompress : List Nat → List Nat → DecompResult

/-- `run_compress` (`mszip/src/lib.rs`) over one chunk, i.e. a
`Cursor` over the bytes returned by `fill_buf`, writing into the
`MAX_BLOCK_SIZE - SIG_LEN` bytes of `out_buffer[SIG_LEN..]` (every
write is capped by that `dst` capacity, modelled by the outer `take`).

First iteration: the whole chunk is available, `eof` is false, so the
compressor runs with `Flush::None` and consumes the chunk.  If it emits
any output (`read > 0`), the guard `read == 0 && !eof` of the first
match arm fails and the second arm returns immediately — `Flush::Finish`
is never issued and the returned bytes are an unfinished prefix of the
stream.  Only if it emits nothing does the loop continue to the `eof`
iteration, whose `Flush::Finish` call produces the finished stream. -/
def runCompress (D : Deflate) (dict chunk : List Nat) : Nat × List Nat :=
  if D.emitNone dict chunk = 0 then
    (chunk.length, (D.compress dict chunk).take (MAX_BLOCK_SIZE - SIG_LEN))
  else
    (chunk.length,
      ((D.compress dict chunk).take (D.emitNone dict chunk)).take (MAX_BLOCK_SIZE - SIG_LEN))

/-- The last `n` elements of a list: the contents of zlib's sliding
window of size `n` after the bytes `xs` have been compressed. -/
def lastN (n : Nat) (xs : List Nat) : List Nat := xs.drop (xs.length - n)

/-- One step of `MSZipEncoder::read_block` per non-empty chunk, iterated
over the whole input (`fuel` structurally bounds the recursion; any
`fuel ≥ input.length` gives the full run, see `encodeBlocks`).

Each call takes the next `fill_buf` chunk of at most `MAX_CHUNK` bytes,
prepends `MSZIP_SIGNATURE` to the output buffer and runs `runCompress`
into `out_buffer[SIG_LEN..]`; the chunk is consumed in full on every
`run_compress` exit path, so `original_size` is the chunk length, while
the payload is whatever `run_compress` wrote — the finished stream, or
an unfinished prefix on the early-return path.  The compressor keeps
its sliding window across blocks (`deflateResetKeep`), so the
dictionary for each chunk is the last `MAX_CHUNK` bytes consumed so far
(`hist` is all consumed input).  The `original_size = 0` end-of-stream
sentinel block is not part of the list. -/
def encodeBlocksF (D : Deflate) : Nat → List Nat → List Nat → List (Nat × List Nat)
  | 0, _, _ => []
  | fuel + 1, input, hist =>
    if input.length = 0 then []
    else
      let chunk := input.take MAX_CHUNK
      ((runCompress D (lastN MAX_CHUNK hist) chunk).1,
        MSZIP_SIGNATURE ++ (runCompress D (lastN MAX_CHUNK hist) chunk).2)
        :: encodeBlocksF D fuel (input.drop MAX_CHUNK) (hist ++ chunk)

/-- The sequence of non-empty `(original_size, data)` blocks produced by
repeatedly calling `MSZipEncoder::read_block` on the input `input`, when
the compressor's window already holds the tail of `hist`. -/
def encodeBlocks (D : Deflate) (input hist : List Nat) : List (Nat × List Nat) :=
  encodeBlocksF D input.length input hist

/-- The error kinds of the `mszip` crate's `error_chain`, plus the
`Flate(DataError)` foreign link. -/
inductive MSZipErrorKind where
  | blockSizeTooLarge
  | invalidBlockSignature
  | bufferError
  | decompressionError
  | flateDataError
deriving DecidableEq

/-- Result of a `MSZipDecoder::write_block` call: `Ok(())`, `Err(e)`, or
a Rust panic (the unguarded `&block[..2]` slice on a short block). -/
inductive WBStatus where
  | ok
  | err (e : MSZipErrorKind)
  | panics
deriving DecidableEq

/-- State of an `MSZipDecoder`: the decompressor's dictionary (reset and
re-seeded after every block via `inflateReset` + `inflateSetDictionary`)
and the bytes written to the underlying sink so far. -/
structure DecState where
  dict : List Nat
  sink : List Nat
deriving DecidableEq

/-- `MSZipDecoder::write_block`, translated check by check:
size guard, then the two-byte signature slice `&block[..SIG_LEN]`
(which panics when the block is shorter than `SIG_LEN`), then finish-mode
decompression; on `StreamEnd` the decompressed bytes are written to the
sink and become the next dictionary.  The state is returned unchanged on
every error path. -/
def writeBlock (D : Deflate) (st : DecState) (block : List Nat) : WBStatus × DecState :=
  if MAX_BLOCK_SIZE < block.length then (.err .blockSizeTooLarge, st)
  else if block.length < SIG_LEN then (.panics, st)
  else if block.take SIG_LEN ≠ MSZIP_SIGNATURE then (.err .invalidBlockSignature, st)
  else
    match D.decompress st.dict (block.drop SIG_LEN) with
    | .streamEnd out => (.ok, ⟨out, st.sink ++ out⟩)
    | .moreOutput => (.err .decompressionError, st)
    | .bufError => (.err .bufferError, st)
    | .dataError => (.err .flateDataError, st)

/-- Feeding a sequence of blocks to `MSZipDecoder::write_block` in
order; `none` when some block fails. -/
def decodeBlocks (D : Deflate) (st : DecState) : List (List Nat) → Option DecState
  | [] => some st
  | b :: bs =>
    match writeBlock D st b with
    | (.ok, st1) => decodeBlocks D st1 bs
    | _ => none

/-- The chunk sizes of an input of length `n`: `min MAX_CHUNK n`
repeatedly, until exhaustion (`fuel ≥ n` gives the full run). -/
def chunkSizesF : Nat → Nat → List Nat
  | 0, _ => []
  | fuel + 1, n =>
    if n = 0 then [] else min MAX_CHUNK n :: chunkSizesF fuel (n - MAX_CHUNK)

/-- The chunk sizes of an input of length `n`. -/
def chunkSizes (n : Nat) : List Nat := chunkSizesF n n

/-- A trivial instance of the DEFLATE interface used to instantiate the
theorems at concrete inputs: `compress` is the identity on the chunk,
the compressor buffers every chunk until the finish flush
(`emitNone = 0`), and `decompress` returns its input (demanding a
non-empty stream). -/
def D0 : Deflate where
  compress := fun _ chunk => chunk
  emitNone := fun _ _ => 0
  decompress := fun _ bytes => if bytes = [] then .moreOutput else .streamEnd bytes

/-- An instance of the DEFLATE interface that obeys the documented laws
(`D1_compress_bound`, `D1_decompress_inverts`) but emits its output
during the `Flush::None` call — the behaviour of real zlib on a chunk
with few matches, whose symbols overflow the internal pending buffer.
`compress` models a stored chunk followed by a one-byte end-of-stream
marker (`255`, standing for the `BFINAL=1` block): the marker is
produced only by the finish flush, so the bytes emitted during the
`Flush::None` call are exactly the `chunk.length` stored bytes.
`decompress` reports `StreamEnd` only when the marker is present,
otherwise `Status::Ok` ("stream not finished"), as zlib does on a
truncated stream. -/
def D1 : Deflate where
  compress := fun _ chunk => chunk ++ [255]
  emitNone := fun _ chunk => chunk.length
  decompress := fun _ bytes =>
    if bytes.getLast? = some 255 then .streamEnd bytes.dropLast else .moreOutput

/-- The four fields of a `CFDATA` record as written by
`write_all_cfdata` (`src/lib.rs`): `csum` is always `0`, `cbData` is
`block.data.len() as u16`, `cbUncomp` is `block.original_size as u16`,
and the payload bytes follow. -/
structure CFDataRecord where
  csum : Nat
  cbData : Nat
  cbUncomp : Nat
  payload : List Nat
deriving DecidableEq

/-- `write_all_cfdata` (`src/lib.rs`): one `CFDATA` record per non-empty
block read from the `MSZipEncoder` over the input `d`. -/
def writeAllCFData (D : Deflate) (d : List Nat) : List CFDataRecord :=
  (encodeBlocks D d []).map fun b => ⟨0, b.2.length % 2 ^ 16, b.1 % 2 ^ 16, b.2⟩

/-- `CFFILE.date` as computed by `make_cab` (`src/lib.rs`):
`((mtime.year() as u16 - 1980) << 9) + ((mtime.month() as u16) << 5)
+ mtime.day() as u16`, all in wrapping `u16` arithmetic. -/
def dateField (year month day : Nat) : Nat :=
  (((year % 2 ^ 16 + 2 ^ 16 - 1980) % 2 ^ 16) * 512 % 2 ^ 16
      + (month % 2 ^ 16) * 32 % 2 ^ 16
      + day % 2 ^ 16) % 2 ^ 16

/-- `CFFILE.time` as computed by `make_cab` (`src/lib.rs`):
`((mtime.hour() << 11) + (mtime.minute() << 5) + (mtime.second() / 2))
as u16`, the shifts and sums performed in `u32`. -/
def timeField (hour minute second : Nat) : Nat :=
  ((hour % 2 ^ 32) * 2048 % 2 ^ 32
      + (minute % 2 ^ 32) * 32 % 2 ^ 32
      + (second % 2 ^ 32) / 2) % 2 ^ 32 % 2 ^ 16

/-- Modelled from the spec (§3, `CFFILE` table): the date field written
as `((year-1980) << 9) | (month << 5) | day`.  Stated for comparison
with the source-derived `dateField`. -/
def specDateField (year month day : Nat) : Nat :=
  ((year - 1980) <<< 9) ||| (month <<< 5) ||| day

/-- Modelled from the spec (§3, `CFFILE` table): the time field written
as `(hour << 11) | (minute << 5) | (second/2)`.  Stated for comparison
with the source-derived `timeField`. -/
def specTimeField (hour minute second : Nat) : Nat :=
  (hour <<< 11) ||| (minute <<< 5) ||| (second / 2)

/-- The finalized cabinet produced by a successful `make_cab` run: the
`CFHEADER`, `CFFOLDER` and `CFFILE` fields after the second pass
rewrote them, together with the `CFDATA` records.  All 16/32-bit fields
carry their wrapped (`as u16` / `as u32`) values. -/
structure Cabinet where
  cbCabinet : Nat
  coffFiles : Nat
  versionMinor : Nat
  versionMajor : Nat
  cFolders : Nat
  cFiles : Nat
  coffCabStart : Nat
  cCFData : Nat
  typeCompress : Nat
  cbFile : Nat
  uoffFolderStart : Nat
  iFolder : Nat
  date : Nat
  time : Nat
  attribs : Nat
  filename : List Nat
  records : List CFDataRecord
deriving DecidableEq

/-- `make_cab`'s error kinds (`src/lib.rs`): `BadFilename` when the
input path has no valid-text file-name component.  I/O errors are out of
scope of the embedding. -/
inductive CabError where
  | badFilename
deriving DecidableEq

/-- The serialized byte sizes of the fixed records (`repr(C, packed)`):
`CFHEADER` 36, `CFFOLDER` 8, `CFFILE` 16, `CFDATA` header 8. -/
def CFHEADER_SIZE : Nat := 36

def CFFOLDER_SIZE : Nat := 8

def CFFILE_SIZE : Nat := 16

def CFDATA_SIZE : Nat := 8

/-- The cabinet `make_cab` writes for a single input file, given the
file-name bytes `name`, the local-time decomposition of the
modification time, and the input contents `d`.  Offsets mirror the
two-pass `tell` patching: `coffFiles` after header and folder,
`coffCabStart` additionally after the `CFFILE` and the NUL-terminated
name, `cbCabinet` after all `CFDATA` records; each is truncated
`as u32`.  `cCFData` is the `u16` block counter of `write_all_cfdata`. -/
def cabinetOf (D : Deflate) (name : List Nat) (year month day hour minute second : Nat)
    (d : List Nat) : Cabinet :=
  let records := writeAllCFData D d
  let coffFiles := CFHEADER_SIZE + CFFOLDER_SIZE
  let coffCabStart := coffFiles + CFFILE_SIZE + name.length + 1
  { cbCabinet := (coffCabStart + (records.map fun r => CFDATA_SIZE + r.payload.length).sum) % 2 ^ 32
    coffFiles := coffFiles % 2 ^ 32
    versionMinor := 3
    versionMajor := 1
    cFolders := 1
    cFiles := 1
    coffCabStart := coffCabStart % 2 ^ 32
    cCFData := records.length % 2 ^ 16
    typeCompress := 1
    cbFile := d.length % 2 ^ 32
    uoffFolderStart := 0
    iFolder := 0
    date := dateField year month day
    time := timeField hour minute second
    attribs := 32
    filename := name ++ [0]
    records := records }

/-- `make_cab` (`src/lib.rs`): fails with `BadFilename` when the input
path has no valid file-name component (`file_name().and_then(to_str)`
returns `None`), otherwise writes the cabinet.  No other validation is
performed — in particular there is no input-size check. -/
def makeCab (D : Deflate) (name : Option (List Nat))
    (year month day hour minute second : Nat) (d : List Nat) : Except CabError Cabinet :=
  match name with
  | none => .error .badFilename
  | some n => .ok (cabinetOf D n year month day hour minute second d)

/-- The UTF-8 encoded length in bytes of the scalar value `c` (the
`char`s of a Rust `&str`). -/
def utf8Len (c : Nat) : Nat :=
  if c < 128 then 1 else if c < 2048 then 2 else if c < 65536 then 3 else 4

/-- `str::len` of the string with scalar values `s`: its UTF-8 byte
length. -/
def utf8ByteLength (s : List Nat) : Nat := (s.map utf8Len).sum

/-- The CLI's default destination file name (`src/bin/makecab.rs`),
computed from the scalar values `s` of the source's file-name
component: `s.chars().take(s.len() - 1).chain("_".chars())` — note that
`s.len()` counts UTF-8 *bytes* while `take` counts *characters*
(`95` is `'_'`). -/
def defaultDestName (s : List Nat) : List Nat :=
  s.take (utf8ByteLength s - 1) ++ [95]

/-! ### Helper lemmas -/

theorem encodeBlocksF_nil (D : Deflate) (fuel : Nat) (hist : List Nat) :
    encodeBlocksF D fuel [] hist = [] := by
  cases fuel <;> rfl

theorem chunkSizesF_zero (fuel : Nat) : chunkSizesF fuel 0 = [] := by
  cases fuel <;> rfl

theorem runCompress_fst (D : Deflate) (dict chunk : List Nat) :
    (runCompress D dict chunk).1 = chunk.length := by
  by_cases h : D.emitNone dict chunk = 0
  · simp only [runCompress, if_pos h]
  · simp only [runCompress, if_neg h]

theorem runCompress_snd_le (D : Deflate) (dict chunk : List Nat) :
    (runCompress D dict chunk).2.length ≤ MAX_BLOCK_SIZE - SIG_LEN := by
  by_cases h : D.emitNone dict chunk = 0
  · simp only [runCompress, if_pos h]
    rw [List.length_take]
    exact Nat.min_le_left _ _
  · simp only [runCompress, if_neg h]
    rw [List.length_take]
    exact Nat.min_le_left _ _

theorem runCompress_emit_zero (D : Deflate) (dict chunk : List Nat)
    (h : D.emitNone dict chunk = 0) :
    runCompress D dict chunk
      = (chunk.length, (D.compress dict chunk).take (MAX_BLOCK_SIZE - SIG_LEN)) := by
  simp only [runCompress, if_pos h]

theorem encodeBlocksF_map_fst (D : Deflate) :
    ∀ (fuel : Nat) (input hist : List Nat), input.length ≤ fuel →
      (encodeBlocksF D fuel input hist).map Prod.fst = chunkSizesF fuel input.length := by
  intro fuel
  induction fuel with
  | zero =>
    intro input hist h
    simp [encodeBlocksF, chunkSizesF]
  | succ fuel ih =>
    intro input hist h
    by_cases hlen : input.length = 0
    · rw [encodeBlocksF, chunkSizesF, if_pos hlen, if_pos hlen]
      rfl
    · rw [encodeBlocksF, chunkSizesF, if_neg hlen, if_neg hlen, List.map_cons,
        ih (input.drop MAX_CHUNK) _ (by simp only [List.length_drop, MAX_CHUNK] at h ⊢; omega),
        List.length_drop]
      simp only [runCompress_fst, List.length_take]

theorem chunkSizesF_mem (fuel n s : Nat) (hs : s ∈ chunkSizesF fuel n) :
    1 ≤ s ∧ s ≤ MAX_CHUNK := by
  induction fuel generalizing n with
  | zero => simp [chunkSizesF] at hs
  | succ fuel ih =>
    rw [chunkSizesF] at hs
    by_cases hn : n = 0
    · simp [hn] at hs
    · rw [if_neg hn, List.mem_cons] at hs
      rcases hs with hs | hs
      · subst hs
        refine ⟨?_, Nat.min_le_left _ _⟩
        simp only [MAX_CHUNK]
        omega
      · exact ih _ hs

theorem chunkSizesF_sum (fuel n : Nat) (h : n ≤ fuel) : (chunkSizesF fuel n).sum = n := by
  induction fuel generalizing n with
  | zero =>
    interval_cases n
    rfl
  | succ fuel ih =>
    rw [chunkSizesF]
    by_cases hn : n = 0
    · simp [hn]
    · rw [if_neg hn, List.sum_cons,
        ih _ (by simp only [MAX_CHUNK]; omega)]
      simp only [MAX_CHUNK]
      omega

theorem chunkSizesF_full (fuel n i : Nat) (hi : i + 1 < (chunkSizesF fuel n).length) :
    (chunkSizesF fuel n).getD i 0 = MAX_CHUNK := by
  induction fuel generalizing n i with
  | zero => simp [chunkSizesF] at hi
  | succ fuel ih =>
    rw [chunkSizesF] at hi ⊢
    by_cases hn : n = 0
    · simp [hn] at hi
    · rw [if_neg hn] at hi ⊢
      cases i with
      | zero =>
        rw [List.getD_cons_zero]
        have htail : chunkSizesF fuel (n - MAX_CHUNK) ≠ [] := by
          intro hempty
          rw [hempty] at hi
          simp at hi
        have hnm : n - MAX_CHUNK ≠ 0 := by
          intro h0
          exact htail (h0 ▸ chunkSizesF_zero fuel)
        simp only [MAX_CHUNK] at hnm ⊢
        omega
      | succ i =>
        rw [List.getD_cons_succ]
        exact ih _ _ (by simpa using hi)

theorem chunkSizesF_length_le (fuel k n : Nat) (h : n ≤ k * MAX_CHUNK) :
    (chunkSizesF fuel n).length ≤ k := by
  induction fuel generalizing n k with
  | zero => simp [chunkSizesF]
  | succ fuel ih =>
    by_cases hn : n = 0
    · rw [chunkSizesF, if_pos hn]
      simp
    · rw [chunkSizesF, if_neg hn, List.length_cons]
      simp only [MAX_CHUNK] at h ⊢
      have hrec := ih (k - 1) (n - 32768) (by simp only [MAX_CHUNK]; omega)
      omega

theorem chunkSizesF_length_ge (fuel k n : Nat) (hfuel : n ≤ fuel) (h : k * MAX_CHUNK < n) :
    k + 1 ≤ (chunkSizesF fuel n).length := by
  induction fuel generalizing n k with
  | zero =>
    simp only [MAX_CHUNK] at h
    omega
  | succ fuel ih =>
    have hn : n ≠ 0 := by
      simp only [MAX_CHUNK] at h
      omega
    rw [chunkSizesF, if_neg hn, List.length_cons]
    cases k with
    | zero => omega
    | succ k =>
      simp only [MAX_CHUNK] at h ⊢
      have hrec := ih k (n - 32768) (by omega) (by simp only [MAX_CHUNK]; omega)
      omega

theorem MAX_CHUNK_pos : 0 < MAX_CHUNK := by decide

theorem lastN_nil (n : Nat) : lastN n [] = [] := by
  unfold lastN
  exact List.drop_nil

theorem lastN_append_full (hist chunk : List Nat) (h : chunk.length = MAX_CHUNK) :
    lastN MAX_CHUNK (hist ++ chunk) = chunk := by
  unfold lastN
  rw [List.length_append, h, Nat.add_sub_cancel]
  exact List.drop_left hist chunk

theorem decodeBlocks_cons_ok (D : Deflate) (st st1 : DecState) (b : List Nat)
    (bs : List (List Nat)) (h : writeBlock D st b = (.ok, st1)) :
    decodeBlocks D st (b :: bs) = decodeBlocks D st1 bs := by
  simp only [decodeBlocks, h]

theorem writeBlock_encoded (D : Deflate) (dict sink chunk : List Nat)
    (hb : (D.compress dict chunk).length ≤ MAX_CHUNK + 10)
    (hrt : D.decompress dict (D.compress dict chunk) = .streamEnd chunk) :
    writeBlock D ⟨dict, sink⟩ (MSZIP_SIGNATURE ++ D.compress dict chunk)
      = (.ok, ⟨chunk, sink ++ chunk⟩) := by
  have hblock : MSZIP_SIGNATURE ++ D.compress dict chunk
      = 67 :: 75 :: D.compress dict chunk := rfl
  have hA : ¬ (MAX_BLOCK_SIZE < (67 :: 75 :: D.compress dict chunk).length) := by
    simp only [List.length_cons, MAX_BLOCK_SIZE]
    omega
  have hB : ¬ ((67 :: 75 :: D.compress dict chunk).length < SIG_LEN) := by
    simp only [List.length_cons, SIG_LEN]
    omega
  have hC : ¬ ((67 :: 75 :: D.compress dict chunk).take SIG_LEN ≠ MSZIP_SIGNATURE) :=
    fun hcon => hcon rfl
  have hdrop : (67 :: 75 :: D.compress dict chunk).drop SIG_LEN
      = D.compress dict chunk := rfl
  rw [hblock]
  simp only [writeBlock, if_neg hA, if_neg hB, if_neg hC, hdrop, hrt]

theorem decode_encodeF (D : Deflate)
    (Hnone : ∀ dict chunk : List Nat, D.emitNone dict chunk = 0)
    (Hb : ∀ dict chunk : List Nat, chunk.length ≤ MAX_CHUNK →
      (D.compress dict chunk).length ≤ MAX_CHUNK + 10)
    (Hrt : ∀ dict chunk : List Nat, chunk ≠ [] → chunk.length ≤ MAX_CHUNK →
      D.decompress dict (D.compress dict chunk) = .streamEnd chunk) :
    ∀ (fuel : Nat) (input hist sink : List Nat), input.length ≤ fuel →
      Option.map DecState.sink
          (decodeBlocks D ⟨lastN MAX_CHUNK hist, sink⟩
            ((encodeBlocksF D fuel input hist).map Prod.snd))
        = some (sink ++ input) := by
  intro fuel
  induction fuel with
  | zero =>
    intro input hist sink h
    have h0 : input = [] := List.length_eq_zero.mp (Nat.le_zero.mp h)
    subst h0
    simp [encodeBlocksF, decodeBlocks]
  | succ fuel ih =>
    intro input hist sink h
    by_cases hlen : input.length = 0
    · have h0 : input = [] := List.length_eq_zero.mp hlen
      subst h0
      simp [encodeBlocksF_nil, decodeBlocks]
    · rw [encodeBlocksF, if_neg hlen, List.map_cons]
      have hchunkle : (input.take MAX_CHUNK).length ≤ MAX_CHUNK := by
        rw [List.length_take]
        exact Nat.min_le_left _ _
      have hchunkne : input.take MAX_CHUNK ≠ [] := by
        intro hcon
        have hcl := congrArg List.length hcon
        rw [List.length_take] at hcl
        simp only [List.length_nil] at hcl
        have := MAX_CHUNK_pos
        omega
      have hcompfit : (D.compress (lastN MAX_CHUNK hist) (input.take MAX_CHUNK)).take
            (MAX_BLOCK_SIZE - SIG_LEN)
          = D.compress (lastN MAX_CHUNK hist) (input.take MAX_CHUNK) := by
        apply List.take_of_length_le
        have hfit := Hb (lastN MAX_CHUNK hist) _ hchunkle
        simp only [MAX_BLOCK_SIZE, SIG_LEN]
        omega
      have hrcfull := runCompress_emit_zero D (lastN MAX_CHUNK hist) (input.take MAX_CHUNK)
        (Hnone _ _)
      simp only [hrcfull]
      rw [hcompfit,
        decodeBlocks_cons_ok D _ _ _ _
          (writeBlock_encoded D (lastN MAX_CHUNK hist) sink (input.take MAX_CHUNK)
            (Hb _ _ hchunkle) (Hrt _ _ hchunkne hchunkle))]
      by_cases hbig : MAX_CHUNK < input.length
      · have hfull : (input.take MAX_CHUNK).length = MAX_CHUNK := by
          rw [List.length_take]
          omega
        have hrec := ih (input.drop MAX_CHUNK) (hist ++ input.take MAX_CHUNK)
          (sink ++ input.take MAX_CHUNK)
          (by
            rw [List.length_drop]
            have := MAX_CHUNK_pos
            omega)
        rw [lastN_append_full _ _ hfull] at hrec
        rw [hrec, List.append_assoc, List.take_append_drop]
      · have hdrop0 : input.drop MAX_CHUNK = [] := List.drop_eq_nil_of_le (by omega)
        rw [hdrop0, encodeBlocksF_nil]
        simp only [List.map_nil, decodeBlocks, Option.map_some]
        rw [List.take_of_length_le (by omega)]
        rfl

theorem encodeBlocks_map_fst (D : Deflate) (input hist : List Nat) :
    (encodeBlocks D input hist).map Prod.fst = chunkSizes input.length := by
  rw [encodeBlocks, chunkSizes]
  exact encodeBlocksF_map_fst D input.length input hist (le_refl _)

theorem encodeBlocksF_snd_mem (D : Deflate) :
    ∀ (fuel : Nat) (input hist : List Nat) (b : Nat × List Nat),
      b ∈ encodeBlocksF D fuel input hist →
      b.2.take SIG_LEN = MSZIP_SIGNATURE ∧
      (b.2.drop SIG_LEN).length ≤ MAX_BLOCK_SIZE - SIG_LEN := by
  intro fuel
  induction fuel with
  | zero =>
    intro input hist b hb
    simp [encodeBlocksF] at hb
  | succ fuel ih =>
    intro input hist b hb
    rw [encodeBlocksF] at hb
    by_cases hlen : input.length = 0
    · rw [if_pos hlen] at hb
      simp at hb
    · rw [if_neg hlen, List.mem_cons] at hb
      rcases hb with hb | hb
      · subst hb
        refine ⟨rfl, ?_⟩
        show ((MSZIP_SIGNATURE
            ++ (runCompress D (lastN MAX_CHUNK hist) (input.take MAX_CHUNK)).2).drop
              SIG_LEN).length ≤ MAX_BLOCK_SIZE - SIG_LEN
        have hdrop : (MSZIP_SIGNATURE
            ++ (runCompress D (lastN MAX_CHUNK hist) (input.take MAX_CHUNK)).2).drop SIG_LEN
            = (runCompress D (lastN MAX_CHUNK hist) (input.take MAX_CHUNK)).2 := rfl
        rw [hdrop]
        exact runCompress_snd_le _ _ _
      · exact ih _ _ _ hb

/-! ### Claims about the MS-ZIP codec -/

/-- Round-trip under the buffering hypothesis `Hnone`: when the
compressor never emits output during a `Flush::None` call,
`run_compress` reaches its `Flush::Finish` call on every chunk, each
block carries a finished stream, and decoding the blocks in order
reproduces the input.  Together with
`mszip_roundtrip_fails_on_early_emit` this isolates the early-return
path of `run_compress` as the sole obstruction to the spec's universal
round-trip law.  `Hb` and `Hrt` are the documented guarantees of the
DEFLATE primitive: the `32768 + 10` output bound and finish-mode
inversion against the matching dictionary. -/
theorem mszip_roundtrip_of_buffering (D : Deflate) (d : List Nat)
    (Hnone : ∀ dict chunk : List Nat, D.emitNone dict chunk = 0)
    (Hb : ∀ dict chunk : List Nat, chunk.length ≤ MAX_CHUNK →
      (D.compress dict chunk).length ≤ MAX_CHUNK + 10)
    (Hrt : ∀ dict chunk : List Nat, chunk ≠ [] → chunk.length ≤ MAX_CHUNK →
      D.decompress dict (D.compress dict chunk) = .streamEnd chunk) :
    Option.map DecState.sink
        (decodeBlocks D ⟨[], []⟩ ((encodeBlocks D d []).map Prod.snd))
      = some d := by
  have hmain := decode_encodeF D Hnone Hb Hrt d.length d [] [] (le_refl _)
  rw [lastN_nil] at hmain
  rw [encodeBlocks]
  simpa using hmain

/-- `D1` satisfies the documented DEFLATE output bound: the finished
stream for a chunk of at most 32768 bytes fits in `32768 + 10` bytes. -/
theorem D1_compress_bound (dict chunk : List Nat) (h : chunk.length ≤ MAX_CHUNK) :
    (D1.compress dict chunk).length ≤ MAX_CHUNK + 10 := by
  simp only [D1, List.length_append, List.length_cons, List.length_nil]
  omega

/-- `D1` satisfies the documented finish-mode inversion law: the
decompressor, fed a finished `D1` stream with the matching dictionary,
reports `StreamEnd` with the original chunk. -/
theorem D1_decompress_inverts (dict chunk : List Nat) :
    D1.decompress dict (D1.compress dict chunk) = .streamEnd chunk := by
  simp only [D1]
  rw [List.getLast?_concat, if_pos rfl, List.dropLast_concat]

/-- Claim C1 (evaluation of the code at the failing input): the
round-trip fails on the `run_compress` early-return path.  `D1`
satisfies the documented DEFLATE laws (`D1_compress_bound`,
`D1_decompress_inverts`) but emits its output during the `Flush::None`
call, as zlib does on near-match-free chunks.  `read_block` then
returns before ever issuing `Flush::Finish`, so the block for the input
`[1, 2]` carries an unfinished stream (the stored bytes without the
end-of-stream marker); `write_block` sees `Status::Ok` instead of
`StreamEnd` and fails with `DecompressionError`, so decoding yields no
output rather than the original bytes. -/
theorem mszip_roundtrip_fails_on_early_emit :
    Option.map DecState.sink
        (decodeBlocks D1 ⟨[], []⟩ ((encodeBlocks D1 [1, 2] []).map Prod.snd)) = none := by
  decide

/-- Claim C2: chunking.  Every non-empty block consumes between 1 and
32768 input bytes (`original_size ∈ 1..=32768`), and every block other
than the last is full (`original_size = 32768`), so a short block can
occur only when the input has been exhausted. -/
theorem mszip_encoder_chunking (D : Deflate) (input : List Nat) :
    (∀ b ∈ encodeBlocks D input [], 1 ≤ b.1 ∧ b.1 ≤ MAX_CHUNK) ∧
    (∀ i : Nat, i + 1 < (encodeBlocks D input []).length →
      ((encodeBlocks D input []).map Prod.fst).getD i 0 = MAX_CHUNK) := by
  constructor
  · intro b hb
    have hmem : b.1 ∈ (encodeBlocks D input []).map Prod.fst :=
      List.mem_map_of_mem _ hb
    rw [encodeBlocks_map_fst] at hmem
    simp only [chunkSizes] at hmem
    exact chunkSizesF_mem _ _ _ hmem
  · intro i hi
    rw [encodeBlocks_map_fst]
    simp only [chunkSizes]
    apply chunkSizesF_full
    have hlenmap : ((encodeBlocks D input []).map Prod.fst).length
        = (encodeBlocks D input []).length := List.length_map _ _
    rw [encodeBlocks_map_fst] at hlenmap
    simp only [chunkSizes] at hlenmap
    omega

/-- Witness for C2: at the identity-compression model `D0`, the single
block for input `[5]` has `original_size = 1`, and for a 32769-byte
input the first of the two blocks is full. -/
theorem mszip_encoder_chunking_witness :
    (1 ≤ ((1 : Nat), [67, 75, 5]).1 ∧ ((1 : Nat), [67, 75, 5]).1 ≤ MAX_CHUNK) ∧
    ((encodeBlocks D0 (List.replicate 32769 0) []).map Prod.fst).getD 0 0 = MAX_CHUNK := by
  constructor
  · exact (mszip_encoder_chunking D0 [5]).1 (1, [67, 75, 5]) (by decide)
  · apply (mszip_encoder_chunking D0 (List.replicate 32769 0)).2 0
    have hlenmap : ((encodeBlocks D0 (List.replicate 32769 0) []).map Prod.fst).length
        = (encodeBlocks D0 (List.replicate 32769 0) []).length := List.length_map _ _
    rw [encodeBlocks_map_fst] at hlenmap
    simp only [chunkSizes, List.length_replicate] at hlenmap
    have hge := chunkSizesF_length_ge 32769 1 32769 (le_refl _)
      (by simp only [MAX_CHUNK]; omega)
    omega

/-- Claim C3: block invariant.  Every non-empty block's payload begins
with the two signature bytes `0x43, 0x4B`, its compressed part (after
the signature) is at most `32768 + 10` bytes, and its total length is at
most `32768 + 12 = 32780` bytes. -/
theorem mszip_block_invariant (D : Deflate) (input hist : List Nat) (b : Nat × List Nat)
    (hb : b ∈ encodeBlocks D input hist) :
    b.2.take SIG_LEN = MSZIP_SIGNATURE ∧
    (b.2.drop SIG_LEN).length ≤ MAX_CHUNK + 10 ∧
    b.2.length ≤ MAX_CHUNK + 12 := by
  rw [encodeBlocks] at hb
  have h := encodeBlocksF_snd_mem D input.length input hist b hb
  have hd : (b.2.drop SIG_LEN).length ≤ MAX_CHUNK + 10 := by
    have h2 := h.2
    have hmbs : MAX_BLOCK_SIZE = MAX_CHUNK + 12 := rfl
    have hsl : SIG_LEN = 2 := rfl
    omega
  refine ⟨h.1, hd, ?_⟩
  have hsplit := congrArg List.length (List.take_append_drop SIG_LEN b.2)
  rw [List.length_append, h.1] at hsplit
  have hsig : MSZIP_SIGNATURE.length = 2 := rfl
  rw [hsig] at hsplit
  omega

/-- Witness for C3: the single block `(1, [67, 75, 5])` produced by the
identity-compression model on input `[5]`. -/
theorem mszip_block_invariant_witness :
    ((1 : Nat), [67, 75, 5]).2.take SIG_LEN = MSZIP_SIGNATURE ∧
    (((1 : Nat), [67, 75, 5]).2.drop SIG_LEN).length ≤ MAX_CHUNK + 10 ∧
    ((1 : Nat), [67, 75, 5]).2.length ≤ MAX_CHUNK + 12 :=
  mszip_block_invariant D0 [5] [] (1, [67, 75, 5]) (by decide)

/-- Claim C4: size validation.  `MSZipDecoder::write_block` returns
`BlockSizeTooLarge` exactly when the block is longer than
`MAX_BLOCK_SIZE = 32780` bytes, and in that case the decoder state (its
dictionary and its sink) is unchanged — nothing is written. -/
theorem mszip_decoder_size_validation (D : Deflate) (st : DecState) (block : List Nat) :
    ((writeBlock D st block).1 = .err .blockSizeTooLarge ↔ MAX_BLOCK_SIZE < block.length) ∧
    (MAX_BLOCK_SIZE < block.length → writeBlock D st block = (.err .blockSizeTooLarge, st)) := by
  have hbig : MAX_BLOCK_SIZE < block.length →
      writeBlock D st block = (.err .blockSizeTooLarge, st) := by
    intro h
    simp only [writeBlock, if_pos h]
  refine ⟨⟨?_, fun h => by rw [hbig h]⟩, hbig⟩
  intro h
  by_contra hnot
  simp only [writeBlock, if_neg hnot] at h
  by_cases h2 : block.length < SIG_LEN
  · rw [if_pos h2] at h
    simp at h
  · rw [if_neg h2] at h
    by_cases h3 : block.take SIG_LEN ≠ MSZIP_SIGNATURE
    · rw [if_pos h3] at h
      simp at h
    · rw [if_neg h3] at h
      rcases hd : D.decompress st.dict (block.drop SIG_LEN) with out | _ | _ | _ <;>
        rw [hd] at h <;> simp at h

/-- Witness for C4: a 32781-byte block is rejected with
`BlockSizeTooLarge` and the state is unchanged. -/
theorem mszip_decoder_size_validation_witness :
    writeBlock D0 ⟨[], []⟩ (List.replicate 32781 0) = (.err .blockSizeTooLarge, ⟨[], []⟩) :=
  (mszip_decoder_size_validation D0 ⟨[], []⟩ (List.replicate 32781 0)).2
    (by
      simp only [List.length_replicate, MAX_BLOCK_SIZE, MAX_CHUNK]
      omega)

/-- Claim C5: signature validation with atomicity.  Every block of
length between `SIG_LEN` and `MAX_BLOCK_SIZE` whose first two bytes are
not `0x43, 0x4B` is rejected with `InvalidBlockSignature`, and the
decoder state (dictionary and sink) is returned unchanged. -/
theorem mszip_decoder_signature_validation (D : Deflate) (st : DecState) (block : List Nat)
    (hlen2 : SIG_LEN ≤ block.length) (hmax : block.length ≤ MAX_BLOCK_SIZE)
    (hsig : block.take SIG_LEN ≠ MSZIP_SIGNATURE) :
    writeBlock D st block = (.err .invalidBlockSignature, st) := by
  simp only [writeBlock, if_neg (by omega : ¬ MAX_BLOCK_SIZE < block.length),
    if_neg (by omega : ¬ block.length < SIG_LEN), if_pos hsig]

/-- Witness for C5: the block `[0, 0]` is rejected with
`InvalidBlockSignature` and the state is unchanged. -/
theorem mszip_decoder_signature_validation_witness :
    writeBlock D0 ⟨[], []⟩ [0, 0] = (.err .invalidBlockSignature, ⟨[], []⟩) :=
  mszip_decoder_signature_validation D0 ⟨[], []⟩ [0, 0]
    (by decide) (by decide) (by decide)

/-- Claim C10: for every block of length 0 or 1, the unguarded
`&block[..2]` slice in `MSZipDecoder::write_block` is out of bounds, so
the call panics instead of returning an `Err`; the
`InvalidBlockSignature` branch is reachable only for blocks of length at
least 2. -/
theorem writeblock_short_block_panics (D : Deflate) (st : DecState) (block : List Nat) :
    (block.length < SIG_LEN → writeBlock D st block = (.panics, st)) ∧
    ((writeBlock D st block).1 = .err .invalidBlockSignature → SIG_LEN ≤ block.length) := by
  have hshort : block.length < SIG_LEN → writeBlock D st block = (.panics, st) := by
    intro h
    have hA : ¬ MAX_BLOCK_SIZE < block.length := by
      simp only [SIG_LEN] at h
      simp only [MAX_BLOCK_SIZE, MAX_CHUNK]
      omega
    simp only [writeBlock, if_neg hA, if_pos h]
  refine ⟨hshort, ?_⟩
  intro h
  by_contra hnot
  push_neg at hnot
  rw [hshort hnot] at h
  simp at h

/-- Witness for C10: blocks `[0]` and `[]` both make `write_block`
panic. -/
theorem writeblock_short_block_panics_witness :
    writeBlock D0 ⟨[], []⟩ [0] = (.panics, ⟨[], []⟩) ∧
    writeBlock D0 ⟨[], []⟩ [] = (.panics, ⟨[], []⟩) :=
  ⟨(writeblock_short_block_panics D0 ⟨[], []⟩ [0]).1 (by decide),
   (writeblock_short_block_panics D0 ⟨[], []⟩ []).1 (by decide)⟩

/-! ### Claims about the cabinet writer -/

theorem cabinetOf_cCFData (D : Deflate) (name : List Nat)
    (year month day hour minute second : Nat) (d : List Nat) :
    (cabinetOf D name year month day hour minute second d).cCFData
      = (writeAllCFData D d).length % 2 ^ 16 := rfl

theorem cabinetOf_records (D : Deflate) (name : List Nat)
    (year month day hour minute second : Nat) (d : List Nat) :
    (cabinetOf D name year month day hour minute second d).records
      = writeAllCFData D d := rfl

theorem cabinetOf_cbFile (D : Deflate) (name : List Nat)
    (year month day hour minute second : Nat) (d : List Nat) :
    (cabinetOf D name year month day hour minute second d).cbFile
      = d.length % 2 ^ 32 := rfl

theorem cabinetOf_date (D : Deflate) (name : List Nat)
    (year month day hour minute second : Nat) (d : List Nat) :
    (cabinetOf D name year month day hour minute second d).date
      = dateField year month day := rfl

theorem cabinetOf_time (D : Deflate) (name : List Nat)
    (year month day hour minute second : Nat) (d : List Nat) :
    (cabinetOf D name year month day hour minute second d).time
      = timeField hour minute second := rfl

theorem writeAllCFData_length (D : Deflate) (d : List Nat) :
    (writeAllCFData D d).length = (chunkSizesF d.length d.length).length := by
  unfold writeAllCFData
  rw [List.length_map]
  have h := congrArg List.length (encodeBlocks_map_fst D d [])
  rw [List.length_map] at h
  simpa [chunkSizes] using h

theorem writeAllCFData_cbUncomp_sum (D : Deflate) (d : List Nat) :
    ((writeAllCFData D d).map CFDataRecord.cbUncomp).sum = d.length := by
  have h1 : (writeAllCFData D d).map CFDataRecord.cbUncomp
      = (chunkSizes d.length).map (fun s => s % 2 ^ 16) := by
    unfold writeAllCFData
    rw [List.map_map, ← encodeBlocks_map_fst D d [], List.map_map]
    rfl
  have h2 : (chunkSizes d.length).map (fun s => s % 2 ^ 16) = chunkSizes d.length := by
    have hc : ∀ s ∈ chunkSizes d.length, s % 2 ^ 16 = id s := by
      intro s hs
      simp only [chunkSizes] at hs
      have hm := chunkSizesF_mem _ _ _ hs
      have hup : MAX_CHUNK = 32768 := rfl
      have hp16 : (2:Nat) ^ 16 = 65536 := by norm_num
      rw [hp16]
      exact Nat.mod_eq_of_lt (by omega)
    rw [List.map_congr_left hc, List.map_id]
  rw [h1, h2]
  simp only [chunkSizes]
  exact chunkSizesF_sum _ _ (le_refl _)

/-- Claim C6 (amended): structural invariants of the finalized cabinet,
for inputs whose `CFDATA` record count fits the 16-bit `cCFData`
counter (at most `65535 * 32768` bytes — such lengths also fit the
32-bit `cbFile`).  After `make_cab` succeeds, the folder's `cCFData`
equals the number of `CFDATA` records written, the sum over all records
of `cbUncomp` equals the `CFFILE`'s `cbFile`, and for an empty input no
record is written, `cCFData = 0` and `cbFile = 0`. -/
theorem cabinet_structural_invariants (D : Deflate) (name : Option (List Nat))
    (year month day hour minute second : Nat) (d : List Nat) (cab : Cabinet)
    (hsize : d.length ≤ 65535 * 32768)
    (hok : makeCab D name year month day hour minute second d = .ok cab) :
    cab.cCFData = cab.records.length ∧
    (cab.records.map CFDataRecord.cbUncomp).sum = cab.cbFile ∧
    (d = [] → cab.records = [] ∧ cab.cCFData = 0 ∧ cab.cbFile = 0) := by
  cases name with
  | none => simp [makeCab] at hok
  | some n =>
    simp only [makeCab, Except.ok.injEq] at hok
    subst hok
    refine ⟨?_, ?_, ?_⟩
    · rw [cabinetOf_cCFData, cabinetOf_records]
      have hlen : (writeAllCFData D d).length ≤ 65535 := by
        rw [writeAllCFData_length]
        apply chunkSizesF_length_le
        have hup : MAX_CHUNK = 32768 := rfl
        omega
      have hp16 : (2:Nat) ^ 16 = 65536 := by norm_num
      rw [hp16]
      exact Nat.mod_eq_of_lt (by omega)
    · rw [cabinetOf_records, cabinetOf_cbFile, writeAllCFData_cbUncomp_sum]
      have hp32 : (2:Nat) ^ 32 = 4294967296 := by norm_num
      rw [hp32]
      exact (Nat.mod_eq_of_lt (by omega)).symm
    · intro hd
      subst hd
      refine ⟨rfl, rfl, rfl⟩

/-- Counterexample to Claim C6 as stated: for a `65535 * 32768 + 1`-byte
input, `make_cab` succeeds, 65536 `CFDATA` records are written, but the
`u16` record counter wraps, so the folder's `cCFData` (= 0) differs from
the number of records written. -/
theorem cabinet_cCFData_counterexample :
    makeCab D0 (some [97]) 2024 10 12 0 0 0 (List.replicate (65535 * 32768 + 1) 0)
        = .ok (cabinetOf D0 [97] 2024 10 12 0 0 0 (List.replicate (65535 * 32768 + 1) 0)) ∧
    (cabinetOf D0 [97] 2024 10 12 0 0 0 (List.replicate (65535 * 32768 + 1) 0)).cCFData
      ≠ (cabinetOf D0 [97] 2024 10 12 0 0 0
          (List.replicate (65535 * 32768 + 1) 0)).records.length := by
  constructor
  · rfl
  · have hlen : (writeAllCFData D0 (List.replicate (65535 * 32768 + 1) 0)).length = 65536 := by
      rw [writeAllCFData_length]
      simp only [List.length_replicate]
      have hup : MAX_CHUNK = 32768 := rfl
      have hle := chunkSizesF_length_le (65535 * 32768 + 1) 65536 (65535 * 32768 + 1)
        (by omega)
      have hge := chunkSizesF_length_ge (65535 * 32768 + 1) 65535 (65535 * 32768 + 1)
        (le_refl _) (by omega)
      omega
    rw [cabinetOf_cCFData, cabinetOf_records, hlen]
    norm_num

/-- Witness for the amended C6: concrete one-byte and empty inputs. -/
theorem cabinet_structural_invariants_witness :
    ((cabinetOf D0 [97] 2024 10 12 0 0 0 [7]).cCFData
        = (cabinetOf D0 [97] 2024 10 12 0 0 0 [7]).records.length ∧
      ((cabinetOf D0 [97] 2024 10 12 0 0 0 [7]).records.map CFDataRecord.cbUncomp).sum
        = (cabinetOf D0 [97] 2024 10 12 0 0 0 [7]).cbFile) ∧
    ((cabinetOf D0 [97] 2024 10 12 0 0 0 []).records = [] ∧
      (cabinetOf D0 [97] 2024 10 12 0 0 0 []).cCFData = 0 ∧
      (cabinetOf D0 [97] 2024 10 12 0 0 0 []).cbFile = 0) := by
  have h1 := cabinet_structural_invariants D0 (some [97]) 2024 10 12 0 0 0 [7]
    (cabinetOf D0 [97] 2024 10 12 0 0 0 [7]) (by decide) rfl
  have h2 := cabinet_structural_invariants D0 (some [97]) 2024 10 12 0 0 0 []
    (cabinetOf D0 [97] 2024 10 12 0 0 0 []) (by decide) rfl
  exact ⟨⟨h1.1, h1.2.1⟩, h2.2.2 rfl⟩

theorem dateField_eq_spec (year month day : Nat) (hyear : 1980 ≤ year)
    (hmonth : month ≤ 12) (hday : day ≤ 31) :
    dateField year month day = specDateField year month day % 2 ^ 16 := by
  have hp5 : (2:Nat) ^ 5 = 32 := by norm_num
  have hp9 : (2:Nat) ^ 9 = 512 := by norm_num
  unfold specDateField
  rw [Nat.shiftLeft_eq, Nat.shiftLeft_eq,
    Nat.mul_comm (year - 1980) (2 ^ 9)]
  have h1 : 2 ^ 9 * (year - 1980) ||| month * 2 ^ 5
      = 2 ^ 9 * (year - 1980) + month * 2 ^ 5 :=
    (Nat.mul_add_lt_is_or (by rw [hp5, hp9]; omega) _).symm
  rw [h1]
  have h2 : 2 ^ 9 * (year - 1980) + month * 2 ^ 5
      = 2 ^ 5 * (2 ^ 4 * (year - 1980) + month) := by ring
  rw [h2]
  have h3 : 2 ^ 5 * (2 ^ 4 * (year - 1980) + month) ||| day
      = 2 ^ 5 * (2 ^ 4 * (year - 1980) + month) + day :=
    (Nat.mul_add_lt_is_or (by rw [hp5]; omega) _).symm
  rw [h3]
  unfold dateField
  norm_num
  omega

theorem timeField_eq_spec (hour minute second : Nat) (hhour : hour ≤ 23)
    (hminute : minute ≤ 59) (hsecond : second ≤ 59) :
    timeField hour minute second = specTimeField hour minute second % 2 ^ 16 := by
  have hp5 : (2:Nat) ^ 5 = 32 := by norm_num
  have hp11 : (2:Nat) ^ 11 = 2048 := by norm_num
  unfold specTimeField
  rw [Nat.shiftLeft_eq, Nat.shiftLeft_eq, Nat.mul_comm hour (2 ^ 11)]
  have h1 : 2 ^ 11 * hour ||| minute * 2 ^ 5
      = 2 ^ 11 * hour + minute * 2 ^ 5 :=
    (Nat.mul_add_lt_is_or (by rw [hp5, hp11]; omega) _).symm
  rw [h1]
  have h2 : 2 ^ 11 * hour + minute * 2 ^ 5
      = 2 ^ 5 * (2 ^ 6 * hour + minute) := by ring
  rw [h2]
  have h3 : 2 ^ 5 * (2 ^ 6 * hour + minute) ||| second / 2
      = 2 ^ 5 * (2 ^ 6 * hour + minute) + second / 2 :=
    (Nat.mul_add_lt_is_or (by rw [hp5]; omega) _).symm
  rw [h3]
  unfold timeField
  norm_num
  omega

/-- Claim C7: date/time encoding.  For every modification time
decomposed in local time into a valid civil tuple (with a
DOS-representable year, `year ≥ 1980`), the `CFFILE` date field written
by `make_cab` is `((year - 1980) <<< 9) ||| (month <<< 5) ||| day` and
the time field is `(hour <<< 11) ||| (minute <<< 5) ||| (second / 2)`,
each taken as a 16-bit value. -/
theorem cffile_date_time_encoding (D : Deflate) (name : List Nat)
    (year month day hour minute second : Nat) (d : List Nat)
    (hyear : 1980 ≤ year) (hmonth : month ≤ 12) (hday : day ≤ 31)
    (hhour : hour ≤ 23) (hminute : minute ≤ 59) (hsecond : second ≤ 59) :
    (cabinetOf D name year month day hour minute second d).date
        = specDateField year month day % 2 ^ 16 ∧
    (cabinetOf D name year month day hour minute second d).time
        = specTimeField hour minute second % 2 ^ 16 := by
  constructor
  · rw [cabinetOf_date]
    exact dateField_eq_spec year month day hyear hmonth hday
  · rw [cabinetOf_time]
    exact timeField_eq_spec hour minute second hhour hminute hsecond

/-- Witness for C7: the date 2024-10-12 and time 13:37:42. -/
theorem cffile_date_time_encoding_witness :
    (cabinetOf D0 [97] 2024 10 12 13 37 42 [7]).date = specDateField 2024 10 12 % 2 ^ 16 ∧
    (cabinetOf D0 [97] 2024 10 12 13 37 42 [7]).time = specTimeField 13 37 42 % 2 ^ 16 :=
  cffile_date_time_encoding D0 [97] 2024 10 12 13 37 42 [7]
    (by norm_num) (by norm_num) (by norm_num)
    (by norm_num) (by norm_num) (by norm_num)

/-- Claim C8 (evaluation of the code at the failing input): `make_cab`
performs no input-size check.  For a `2^32`-byte input it succeeds and
writes `cbFile = 2^32 % 2^32 = 0`, silently truncating the 32-bit field
instead of rejecting the input before writing output. -/
theorem makecab_accepts_oversized_input :
    makeCab D0 (some [97]) 2024 10 12 0 0 0 (List.replicate (2 ^ 32) 0)
        = .ok (cabinetOf D0 [97] 2024 10 12 0 0 0 (List.replicate (2 ^ 32) 0)) ∧
    (cabinetOf D0 [97] 2024 10 12 0 0 0 (List.replicate (2 ^ 32) 0)).cbFile = 0 := by
  constructor
  · rfl
  · rw [cabinetOf_cbFile, List.length_replicate]
    exact Nat.mod_self _

/-- Claim C9 (evaluation of the code at the failing input): the CLI's
default destination name computes `s.chars().take(s.len() - 1)` where
`s.len()` counts UTF-8 bytes but `take` counts characters.  For the
one-character file name `"é"` (code point 233, two UTF-8 bytes) it
keeps the final character and appends `'_'`, producing the
two-character name `"é_"` instead of replacing the final character
(which would give the one-character name `"_"`). -/
theorem default_dest_keeps_final_char_nonascii :
    defaultDestName [233] = [233, 95] ∧
    (defaultDestName [233]).length ≠ ([233] : List Nat).length := by
  constructor
  · decide
  · decide

end Makecab
